import Mathlib

/-!
Verification of the noteutil repository (src/noteutil/noteutil.py).

The Python source is embedded shallowly: strings are `List Char`, Python's
`str` methods are modelled by the `py*` helpers below, class state
(`NoteUtil`) is an explicit record, and in-place mutation is explicit
state passing.  Fallible methods return `Except`; because the original
code mutates `self.notes` in place, the error side of a mutating
operation carries the store state at the moment the exception is raised,
threaded in the same statement order as the source.

The companion classes `Note`/`Extension` (notes.py) and the exception
hierarchy (errors.py) are not part of the sources; they are modelled
from the spec where noted.
-/

set_option maxRecDepth 4096

abbrev Str := List Char

/-- Python `str.isspace` characters (ASCII fragment, which is all the
repository's inputs use). -/
def pyIsSpace (c : Char) : Bool :=
  c == ' ' || c == '\t' || c == '\n' || c == '\r' || c == '\x0b' || c == '\x0c'

/-- Python `str.lstrip()`. -/
def pyLStrip (s : Str) : Str := s.dropWhile pyIsSpace

/-- Python `str.rstrip()`. -/
def pyRStrip (s : Str) : Str := (s.reverse.dropWhile pyIsSpace).reverse

/-- Python `str.strip()`. -/
def pyStrip (s : Str) : Str := pyRStrip (pyLStrip s)

/-- Python `str.find(sub)`: index of the leftmost occurrence, if any. -/
def pyFind (sub : Str) : Str → Option Nat
  | [] => if sub.isPrefixOf ([] : Str) then some 0 else none
  | c :: rest =>
    if sub.isPrefixOf (c :: rest) then some 0
    else (pyFind sub rest).map (· + 1)

/-- Python `sub in s`. -/
def pyIn (sub s : Str) : Bool := (pyFind sub s).isSome

/-- Worker for `pyCountNO`, structurally recursive on a fuel argument;
the fuel `s.length` used by `pyCountNO` is always sufficient because
each step consumes at least one character. -/
def pyCountGo (sub : Str) : Nat → Str → Nat
  | 0, _ => 0
  | _, [] => 0
  | fuel + 1, c :: rest =>
    if sub.isPrefixOf (c :: rest) then
      1 + pyCountGo sub fuel (List.drop (sub.length - 1) rest)
    else
      pyCountGo sub fuel rest

/-- Python `str.count(sub)` (non-overlapping, scanning left to right),
for non-empty `sub`. -/
def pyCountNO (sub s : Str) : Nat := pyCountGo sub s.length s

/-- Python `s.count(sub, 0, b)` = `s[0:b].count(sub)`. -/
def pyCountSlice (sub s : Str) (b : Nat) : Nat := pyCountNO sub (s.take b)

/-- Worker for `pySplit` (accumulates the current piece reversed),
structurally recursive on a fuel argument; the fuel `s.length` used by
`pySplit` is always sufficient because each step consumes at least one
character. -/
def pySplitGo (sep : Str) : Nat → Str → Str → List Str
  | 0, cur, _ => [cur.reverse]
  | _, cur, [] => [cur.reverse]
  | fuel + 1, cur, c :: rest =>
    if sep ≠ [] ∧ sep.isPrefixOf (c :: rest) then
      cur.reverse :: pySplitGo sep fuel [] (List.drop (sep.length - 1) rest)
    else
      pySplitGo sep fuel (c :: cur) rest

/-- Python `str.split(sep)` for a non-empty separator. -/
def pySplit (sep s : Str) : List Str := pySplitGo sep s.length [] s

/-- Python list indexing `l[i]`, including negative-index wrap-around;
`none` models `IndexError`. -/
def pyGet (l : List α) (i : Int) : Option α :=
  if 0 ≤ i then l.get? i.toNat
  else if -(l.length : Int) ≤ i then l.get? ((l.length : Int) + i).toNat
  else none

/-- Python `s * n` for strings (`heading_char * level`). -/
def pyRepeat (s : Str) (n : Nat) : Str := (List.replicate n s).flatten

/-- Python `s[:-k]` for `k ≥ 1`. -/
def pyTakeButLast (k : Nat) (s : Str) : Str := s.take (s.length - k)

/-- Python `list.insert(i, x)` for a non-negative index (clamps past the
end, like Python). -/
def pyInsertAt : List α → Nat → α → List α
  | l, 0, x => x :: l
  | [], _ + 1, x => [x]
  | h :: t, n + 1, x => h :: pyInsertAt t n x

/-- Python `del l[i]` / the removal part of `list.pop(i)` for an
in-range non-negative index. -/
def pyRemoveAt : List α → Nat → List α
  | [], _ => []
  | _ :: t, 0 => t
  | h :: t, n + 1 => h :: pyRemoveAt t n

/-- Python index wrap-around for `list.pop(i)`. -/
def pyIdxWrap (len : Nat) (i : Int) : Int := if i < 0 then i + len else i

/-- Python `list.insert(i, x)` for an arbitrary `Int` index: negative
indices wrap (clamped at 0), large indices clamp to the end. -/
def pyListInsert (l : List α) (i : Int) (x : α) : List α :=
  if i < 0 then pyInsertAt l ((l.length : Int) + i).toNat x
  else pyInsertAt l i.toNat x

/-- Modelled from the spec: the `Extension` record of notes.py (not in
src/): `text` (content between bounds, trimmed), `name`, and the literal
bound strings consumed. -/
structure Extension where
  text : Str
  name : Str
  lbound : Str
  rbound : Str
deriving DecidableEq

/-- Modelled from the spec: the `Note` record of notes.py (not in src/).
Optional fields are `none` exactly when the corresponding keyword
argument is absent in `Note(self, content, nindex, **kwargs)`; `level`
is 0 for non-headings (it is only ever read on headings). -/
structure Note where
  content : Str := []
  nindex : Int := 0
  term : Option Str := none
  definition : Option Str := none
  separator : Option Str := none
  heading_char : Option Str := none
  level : Nat := 0
  level_name : Option Str := none
  heading : Option Str := none
  heading_name : Option Str := none
  begin_nindex : Option Int := none
  end_nindex : Option Int := none
  category_names : List Str := []
  category_prefixes : List Str := []
  extensions : List Extension := []
  extension_names : List Str := []
  extension_bounds : List (Str × Str) := []
deriving DecidableEq

def dfltNote : Note := {}

/-- Modelled from the spec: `Note.is_heading()` — the heading fields are
present only if the line is a heading. -/
def isHeading (n : Note) : Bool := n.heading_name.isSome

/-- Modelled from the spec: `Note.is_pair()` — the pair fields are
present only if the line is a pair. -/
def isPair (n : Note) : Bool := n.term.isSome

/-- The exceptions of errors.py (not in src/); constructor arguments
follow the raise sites in noteutil.py.  `indexErr` stands for Python's
built-in `IndexError` (out-of-range list indexing). -/
inductive NoteErr where
  | headingJump (content : Str) (prev cur : Nat)
  | duplicateHeading (name : Str)
  | missingBound (content lb rb : Str)
  | extraSeparator (content : Str)
  | duplicateTerm (t : Str)
  | noDefinition (content : Str)
  | nindexErr (i : Int)
  | indexErr (i : Int)
deriving DecidableEq

deriving instance DecidableEq for Except

/-- The `NoteUtil` state: the note list plus the configuration read
from the config file (`_read_config`). -/
structure NoteUtil where
  notes : List Note := []
  separator : Option Str := none
  heading_char : Option Str := none
  levels : Nat := 0
  level_names : List Str := []
  category_names : List Str := []
  category_prefixes : List Str := []
  extension_names : List Str := []
  extension_bounds : List (Str × Str) := []
  blocks : Option Str := none
deriving DecidableEq

/-- `NoteUtil.heading_order` (property): notes that are headings, in
chronological (list) order. -/
def headingOrderL (notes : List Note) : List Note := notes.filter (fun n => isHeading n)

/-- `NoteUtil.heading_names` (property). -/
def headingNames (notes : List Note) : List Str :=
  (headingOrderL notes).filterMap (fun n => n.heading_name)

/-- `NoteUtil.pairs` (property). -/
def pairsL (notes : List Note) : List Note := notes.filter (fun n => isPair n)

/-- `self.heading_order[-1].level` with the `IndexError` fallback to 0:
the level of the most recently recorded heading, 0 if there is none. -/
def prevHeadingLevel (notes : List Note) : Nat :=
  match (headingOrderL notes).getLast? with
  | some h => h.level
  | none => 0

/-- `NoteUtil._detect_headings`: returns the rewritten content and the
note builder with the heading kwargs set, or the error raised.
Source order is preserved: the `level_names[level - 1]` lookup (a
possible `IndexError`) precedes the `HeadingJump` check, which precedes
the `DuplicateHeading` check. -/
def detectHeadings (nu : NoteUtil) (content : Str) (nindex : Int) (k : Note) :
    Except NoteErr (Str × Note) :=
  match nu.heading_char with
  | none => .ok (content, k)
  | some hc =>
    if hc.isPrefixOf content then
      let previous_level : Nat := prevHeadingLevel nu.notes
      let current_level : Nat := pyCountSlice hc content nu.levels
      match pyGet nu.level_names ((current_level : Int) - 1) with
      | none => .error (.indexErr ((current_level : Int) - 1))
      | some lname =>
        if (current_level : Int) - (previous_level : Int) > 1 then
          .error (.headingJump content previous_level current_level)
        else
          let hd := pyRepeat hc current_level
          let content2 := pyLStrip (content.drop hd.length)
          if content2 ∈ headingNames nu.notes then
            .error (.duplicateHeading content2)
          else
            .ok (content2,
              { k with heading_char := some hc, level := current_level,
                       level_name := some lname, heading := some hd,
                       heading_name := some content2,
                       begin_nindex := some (nindex + 1) })
    else .ok (content, k)

/-- `NoteUtil._detect_categories`: left-to-right over the configured
(name, prefix-string) list, stripping each matched line prefix. -/
def detectCategories (nu : NoteUtil) (content : Str) (k : Note) : Str × Note :=
  (nu.category_names.zip nu.category_prefixes).foldl
    (fun (acc : Str × Note) (p : Str × Str) =>
      if p.2.isPrefixOf acc.1 then
        (pyLStrip (acc.1.drop p.2.length),
         { acc.2 with category_names := acc.2.category_names ++ [p.1],
                      category_prefixes := acc.2.category_prefixes ++ [p.2] })
      else acc)
    (content, k)

/-- The body of the `while lbound in content` loop of
`NoteUtil._detect_extensions`, run with explicit fuel.  The source loop
terminates for every configuration produced by `_read_extensions`
(both bounds are non-empty `str.split()` tokens), for which the fuel
`content.length + 1` used below is sufficient. -/
def extScan (name lb rb : Str) : Nat → Str → Note → Except NoteErr (Str × Note)
  | 0, content, k => .ok (content, k)
  | fuel + 1, content, k =>
    match pyFind lb content with
    | none => .ok (content, k)
    | some idx =>
      let lindex := idx + lb.length
      match pyFind rb (content.drop lindex) with
      | none => .error (.missingBound content lb rb)
      | some j =>
        let rindex := lindex + j
        let ext : Extension := ⟨pyStrip ((content.drop lindex).take j), name, lb, rb⟩
        let k := { k with extensions := k.extensions ++ [ext] }
        let k := if name ∈ k.extension_names then k
                 else { k with extension_names := k.extension_names ++ [name] }
        extScan name lb rb fuel
          (pyStrip (content.take idx) ++ ' ' :: pyStrip (content.drop (rindex + rb.length)))
          k

/-- `NoteUtil._detect_extensions`. -/
def detectExtensions (nu : NoteUtil) (content : Str) (k : Note) :
    Except NoteErr (Str × Note) :=
  (nu.extension_names.zip nu.extension_bounds).foldlM
    (fun (acc : Str × Note) (p : Str × (Str × Str)) =>
      extScan p.1 p.2.1 p.2.2 (acc.1.length + 1) acc.1
        { acc.2 with extension_bounds := acc.2.extension_bounds ++ [(p.2.1, p.2.2)] })
    (content, k)

/-- `NoteUtil._detect_pairs`. -/
def detectPairs (nu : NoteUtil) (content : Str) (k : Note) : Except NoteErr Note :=
  match nu.separator with
  | none => .ok k
  | some sep =>
    if pyIn sep content then
      if (pySplit sep content).length > 2 then
        .error (.extraSeparator content)
      else
        let term := pyStrip (((pySplit sep content).getD 0 []))
        if term ∈ (pairsL nu.notes).filterMap (fun n => n.term) then
          .error (.duplicateTerm term)
        else
          let defn := pyStrip (((pySplit sep content).getD 1 []))
          if defn = [] then .error (.noDefinition content)
          else .ok { k with term := some term, definition := some defn,
                            separator := some sep }
    else .ok k

/-- `NoteUtil._make_note`: the four detection steps in order, then the
`heading_name` re-bind (note the Python truthiness test
`kwargs.get("heading_name", False)`: an *empty* heading name is falsy
and is not re-bound). -/
def makeNoteP (nu : NoteUtil) (content : Str) (nindex : Int) : Except NoteErr Note := do
  let (c1, k1) ← detectHeadings nu content nindex { nindex := nindex }
  let (c2, k2) := detectCategories nu c1 k1
  let (c3, k3) ← detectExtensions nu c2 k2
  let k4 ← detectPairs nu c3 k3
  let k5 := match k4.heading_name with
    | some h => if h = [] then k4 else { k4 with heading_name := some c3 }
    | none => k4
  return { k5 with content := c3 }

/-- The chronological heading list tagged with each heading's position
in `notes`.  The tags make list elements distinct, so value-based
`indexOf` below coincides with Python's identity-based `list.index`. -/
def headingsTagged (notes : List Note) : List (Nat × Note) :=
  notes.enum.filter (fun q => isHeading q.2)

/-- `self.level_names[note.level - 1]` as used by the `level_order`
property (Python list indexing, so level 0 wraps to the last name). -/
def levelNameOf (nu : NoteUtil) (n : Note) : Option Str :=
  pyGet nu.level_names ((n.level : Int) - 1)

/-- The `while order_index != len(heading_order) and
heading_order[order_index].level > heading.level` loop of
`_complete_headings`: the number of consecutive headings of strictly
greater level the scan skips.  The loop's final index is the start
index plus this count. -/
def orderSkip (lvl : Nat) : List (Nat × Note) → Nat
  | [] => 0
  | q :: rest => if q.2.level > lvl then 1 + orderSkip lvl rest else 0

/-- Python `list.index(x)`: the first position holding `x`.  The source
compares Note objects by identity; since the tags below are distinct
store positions, value equality on tagged headings coincides with
identity. -/
def pyListIndex : List (Nat × Note) → (Nat × Note) → Nat
  | [], _ => 0
  | y :: t, x => if y = x then 0 else 1 + pyListIndex t x

/-- The heading's `level_order` group: the Python code groups headings
by the *name* `level_names[level - 1]`, not by the level itself. -/
def groupFor (nu : NoteUtil) (n : Note) : List (Nat × Note) :=
  (headingsTagged nu.notes).filter (fun q => levelNameOf nu q.2 = levelNameOf nu n)

/-- `level_nindex` for the tagged heading `(p, n)`: the `nindex` of the
next heading of its `level_order` group (`headings[level_index]`), or
the store size if the group is exhausted. -/
def levelNindexFor (nu : NoteUtil) (p : Nat) (n : Note) : Int :=
  let g := groupFor nu n
  let level_index := pyListIndex g (p, n) + 1
  if level_index = g.length then (nu.notes.length : Int)
  else (g.getD level_index (0, dfltNote)).2.nindex

/-- `order_nindex` for the tagged heading `(p, n)`: the `nindex` at the
index reached by the chronological `while` scan, or the store size if
the scan ran off the end. -/
def orderNindexFor (nu : NoteUtil) (p : Nat) (n : Note) : Int :=
  let hord := headingsTagged nu.notes
  let start := pyListIndex hord (p, n) + 1
  let order_index := start + orderSkip n.level (hord.drop start)
  if order_index = hord.length then (nu.notes.length : Int)
  else (hord.getD order_index (0, dfltNote)).2.nindex

/-- The `end_nindex` that `_complete_headings` assigns to the tagged
heading `(p, n)`: `level_nindex` if it is smaller than `order_nindex`,
else `order_nindex`. -/
def endForN (nu : NoteUtil) (p : Nat) (n : Note) : Int :=
  if levelNindexFor nu p n < orderNindexFor nu p n then levelNindexFor nu p n
  else orderNindexFor nu p n

/-- `NoteUtil._complete_headings`.  The source mutates each heading's
`end_nindex` in place while iterating the `level_order` groups; since
the computation only ever reads `nindex`/`level`/`level_name` (never
`end_nindex`), the assignments are independent and are rendered here as
one map over the note list. -/
def completeHeadings (nu : NoteUtil) : NoteUtil :=
  match nu.heading_char with
  | none => nu
  | some _ =>
    { nu with notes := nu.notes.enum.map (fun q =>
        if isHeading q.2 then { q.2 with end_nindex := some (endForN nu q.1 q.2) }
        else q.2) }

/-- Modelled from the spec: the sibling boundary of a heading of level
`lvl` — the `nindex` of the next heading at the same level, given the
chronological list of (tagged) headings strictly after it; `N` if none
remains. -/
def sibAfter (suffix : List (Nat × Note)) (lvl : Nat) (N : Nat) : Int :=
  match suffix.find? (fun q => decide (q.2.level = lvl)) with
  | some q => q.2.nindex
  | none => (N : Int)

/-- Modelled from the spec: the ancestor boundary — scanning forward in
chronological heading order, skip all headings of strictly greater
level and take the `nindex` of the first heading of level `≤ lvl`; `N`
if none. -/
def ancAfter (suffix : List (Nat × Note)) (lvl : Nat) (N : Nat) : Int :=
  match suffix.find? (fun q => decide (q.2.level ≤ lvl)) with
  | some q => q.2.nindex
  | none => (N : Int)

/-- Modelled from the spec: `Note.next_heading` (notes.py not in src/) —
the first heading of the store after this note's position. -/
def nextHeading (notes : List Note) (n : Note) : Option Note :=
  notes.find? (fun m => isHeading m && decide (n.nindex < m.nindex))

/-- Modelled from the spec: `Note.previous_heading` (notes.py not in
src/) — the position of the nearest heading before this note. -/
def prevHeadingIdx (notes : List Note) (n : Note) : Option Nat :=
  ((notes.enum.filter (fun q => isHeading q.2 && decide (q.2.nindex < n.nindex))).getLast?).map
    (fun q => q.1)

/-- `note.previous_heading.end_nindex += d` guarded by the source's
`is not None` checks. -/
def bumpPrevHeading (notes : List Note) (n : Note) (d : Int) : List Note :=
  match prevHeadingIdx notes n with
  | none => notes
  | some j =>
    notes.enum.map (fun q =>
      if q.1 = j then
        match q.2.end_nindex with
        | none => q.2
        | some e => { q.2 with end_nindex := some (e + d) }
      else q.2)

/-- `NoteUtil.insert`.  The bound check precedes any mutation, so the
error side carries the unchanged store. -/
def insertOp (nu : NoteUtil) (note : Note) (nindex : Int) :
    Except (NoteErr × NoteUtil) NoteUtil :=
  if 0 ≤ nindex ∧ nindex ≤ (nu.notes.length : Int) then
    let notes1 := pyInsertAt nu.notes nindex.toNat note
    let notes2 := bumpPrevHeading notes1 note 1
    let notes3 := notes2.enum.map (fun q =>
      if nindex + 1 ≤ (q.1 : Int) then
        let m := { q.2 with nindex := q.2.nindex + 1 }
        if isHeading m then { m with begin_nindex := some (m.nindex + 1) } else m
      else q.2)
    .ok (completeHeadings { nu with notes := notes3 })
  else .error (.nindexErr nindex, nu)

/-- `NoteUtil.delete`.  As in the source: the previous heading's
`end_nindex` is adjusted before removal, then every note at a position
`≥ nindex` of the shortened list has `nindex` (and, for headings,
`begin_nindex`) decremented, then `_complete_headings` reruns. -/
def deleteOp (nu : NoteUtil) (nindex : Int) : Except (NoteErr × NoteUtil) NoteUtil :=
  if 0 ≤ nindex ∧ nindex < (nu.notes.length : Int) then
    let n := nu.notes.getD nindex.toNat dfltNote
    let notes1 := bumpPrevHeading nu.notes n (-1)
    let notes2 := pyRemoveAt notes1 nindex.toNat
    let notes3 := notes2.enum.map (fun q =>
      if nindex ≤ (q.1 : Int) then
        let m := { q.2 with nindex := q.2.nindex - 1 }
        if isHeading m then { m with begin_nindex := m.begin_nindex.map (· - 1) } else m
      else q.2)
    .ok (completeHeadings { nu with notes := notes3 })
  else .error (.nindexErr nindex, nu)

/-- `NoteUtil.make_note`: parse, set the new note's `end_nindex` from
its next heading, insert.  `_make_note` touches no store state, so an
error there carries the store unchanged. -/
def makeNote (nu : NoteUtil) (content : Str) (nindex : Int) :
    Except (NoteErr × NoteUtil) NoteUtil :=
  match makeNoteP nu content nindex with
  | .error e => .error (e, nu)
  | .ok note =>
    let e : Int :=
      match nextHeading nu.notes note with
      | some h => h.nindex
      | none => (nu.notes.length : Int)
    insertOp nu { note with end_nindex := some e } nindex

/-- Modelled from the spec: which exceptions belong to the `NoteError`
family of errors.py (not in src/) and are therefore caught by edit's
`except NoteError` — the line-parse errors and `NindexError` are
NoteUtil's own kinds, while `indexErr` stands for Python's builtin
`IndexError`, which is not a `NoteError`. -/
def isNoteErrorClass : NoteErr → Bool
  | .indexErr _ => false
  | _ => true

/-- The six line-parse error kinds of section 7 of the spec. -/
def isLineParseErr : NoteErr → Bool
  | .headingJump _ _ _ => true
  | .duplicateHeading _ => true
  | .missingBound _ _ _ => true
  | .extraSeparator _ => true
  | .duplicateTerm _ => true
  | .noDefinition _ => true
  | _ => false

/-- `NoteUtil.edit`: `pop` the old note (Python `list.pop`, with
negative-index wrap; an out-of-range index raises before any mutation),
re-make the note at the same `nindex`, and on a `NoteError` re-insert
the old note at `nindex` (Python `list.insert` semantics) before
re-raising.  An exception outside the `NoteError` family — the builtin
`IndexError` from the `level_names[level - 1]` lookup — escapes the
handler, leaving the note popped. -/
def editOp (nu : NoteUtil) (nindex : Int) (content : Str) :
    Except (NoteErr × NoteUtil) NoteUtil :=
  let c := pyStrip content
  let j := pyIdxWrap nu.notes.length nindex
  if 0 ≤ j ∧ j < (nu.notes.length : Int) then
    let old := nu.notes.getD j.toNat dfltNote
    let popped := { nu with notes := pyRemoveAt nu.notes j.toNat }
    match makeNote popped c nindex with
    | .ok nu2 => .ok nu2
    | .error (e, nuE) =>
      if isNoteErrorClass e then
        .error (e, { nuE with notes := pyListInsert nuE.notes nindex old })
      else .error (e, nuE)
  else .error (.indexErr nindex, nu)

/-- Worker for `NoteUtil._read_notes`: the inner absorption loop of a
block — keep appending raw lines (joined by a line break) until one,
after trimming, ends with the delimiter; returns the merged text and
the remaining lines. -/
def absorb (b : Str) : Str → List Str → Str × List Str
  | line, [] => (line, [])
  | line, l :: rest =>
    if b.isSuffixOf (pyStrip l) then (line ++ '\n' :: l, rest)
    else absorb b (line ++ '\n' :: l) rest

theorem absorb_rest_le (b line : Str) (ls : List Str) :
    (absorb b line ls).2.length ≤ ls.length := by
  induction ls generalizing line with
  | nil => simp [absorb]
  | cons l rest ih =>
    simp only [absorb]
    split
    · exact Nat.le_succ _
    · exact le_trans (ih _) (Nat.le_succ _)

/-- Worker for `readNotes`, structurally recursive on a fuel argument;
the fuel `ls.length` used by `readNotes` is always sufficient because
each step consumes at least one raw line (`absorb` never grows the
remainder). -/
def readNotesGo (blocks : Option Str) : Nat → List Str → List Str
  | 0, _ => []
  | _, [] => []
  | fuel + 1, l :: rest =>
    match blocks with
    | some b =>
      if b.isPrefixOf (pyStrip l) then
        let m := absorb b (l.drop b.length) rest
        let merged := pyTakeButLast b.length m.1
        (if merged = [] then [] else [pyStrip merged]) ++ readNotesGo (some b) fuel m.2
      else
        (if l = [] then [] else [pyStrip l]) ++ readNotesGo (some b) fuel rest
    | none =>
      (if l = [] then [] else [pyStrip l]) ++ readNotesGo none fuel rest

/-- `NoteUtil._read_notes`: split the .nu text into logical lines.  If a
block delimiter is configured and a raw line, after trimming, starts
with it, the first `len(blocks)` characters of the *raw* line are
dropped, subsequent raw lines are absorbed until one, after trimming,
ends with the delimiter, the last `len(blocks)` characters of the
merged text are dropped, and the merged text is yielded (stripped)
as one logical line; an empty line is dropped. -/
def readNotes (blocks : Option Str) (ls : List Str) : List Str :=
  readNotesGo blocks ls.length ls

/-! ## Concrete stores used by the claim theorems -/

/-- A two-note store with no schema features configured (as produced by
parsing a plain two-line document). -/
def nuPlain2 : NoteUtil :=
  { notes := [{ content := ['a'], nindex := 0 }, { content := ['b'], nindex := 1 }] }

/-- As `nuPlain2` with a `::` separator configured. -/
def nuSep2 : NoteUtil :=
  { notes := [{ content := ['a'], nindex := 0 }, { content := ['b'], nindex := 1 }],
    separator := [':', ':'] }

/-- A separator-only schema with no notes. -/
def nuSepOnly : NoteUtil := { separator := [':', ':'] }

/-- A heading schema: marker `#`, 3 levels named A, B, C; empty store. -/
def nuHead3 : NoteUtil :=
  { heading_char := some ['#'], levels := 3, level_names := [['A'], ['B'], ['C']] }

/-- An extension-only schema: bounds `[`/`]` named `tag`. -/
def nuTag : NoteUtil :=
  { extension_names := [("tag".toList)], extension_bounds := [(['['], [']'])] }

/-- A store with one pair note (term `x`) and a `::` separator. -/
def nuOnePair : NoteUtil :=
  { notes := [{ content := ("x :: y".toList), nindex := 0, term := some ['x'],
                definition := some ['y'], separator := [':', ':'] }],
    separator := [':', ':'] }

/-- Heading notes for the duplicate-level-name store: `# x`, `## y`,
`# z` parsed under level names `["A", "A"]`. -/
def noteHx : Note :=
  { content := ['x'], nindex := 0, heading_char := some ['#'], level := 1,
    level_name := some ['A'], heading := some ['#'], heading_name := some ['x'],
    begin_nindex := some 1 }

def noteHy : Note :=
  { content := ['y'], nindex := 1, heading_char := some ['#'], level := 2,
    level_name := some ['A'], heading := some ['#', '#'], heading_name := some ['y'],
    begin_nindex := some 2 }

def noteHz : Note :=
  { content := ['z'], nindex := 2, heading_char := some ['#'], level := 1,
    level_name := some ['A'], heading := some ['#'], heading_name := some ['z'],
    begin_nindex := some 3 }

/-- A parser-reachable store whose two level names coincide. -/
def nuDupNames : NoteUtil :=
  { notes := [noteHx, noteHy, noteHz], heading_char := some ['#'], levels := 2,
    level_names := [['A'], ['A']] }

/-! ## Claim C1 -/

/-- Claim C1 (code bug): on the consistent two-note store `nuPlain2`
(nindexes `[0, 1]`), `edit(0, "c")` *succeeds* yet leaves the nindex
fields `[0, 2]` — not `{0, 1}` as the claim (and the spec's invariant)
requires.  `edit` pops the old note without shifting the following
nindexes down and then `insert` shifts them up, so every successful
edit at a position other than the last leaves a gap. -/
theorem edit_breaks_nindex_contiguity :
    (editOp nuPlain2 0 ['c']).toOption.map
        (fun s => s.notes.map (fun n => n.nindex)) = some [0, 2] := by
  decide

/-! ## Claim C3 -/

/-- Claim C3 counterexample: on the line `" :: d"` (empty trimmed term,
non-empty definition) with separator `::` and no existing pairs, pair
detection does *not* raise `NoDefinition` as the claim states; it
succeeds and produces a pair whose term is the empty string. -/
theorem pair_empty_term_accepted_cex :
    detectPairs nuSepOnly (" :: d".toList) {} =
      .ok { term := some [], definition := some ['d'], separator := [':', ':'] } := by
  decide

/-! ## Claim C5 -/

/-- Worker for `leadMarkRun`, fuel-based for the same reason as
`pyCountGo`. -/
def leadMarkGo (hc : Str) : Nat → Str → Nat
  | 0, _ => 0
  | fuel + 1, s =>
    if hc ≠ [] ∧ hc.isPrefixOf s then 1 + leadMarkGo hc fuel (s.drop hc.length)
    else 0

/-- Modelled from the spec (claim C5's reading): the number of repeated
marker occurrences at the very start of the line. -/
def leadMarkRun (hc s : Str) : Nat := leadMarkGo hc s.length s

/-- Modelled from the spec (claim C5's reading): "the count of repeated
marker occurrences at the start of the line, capped at the configured
max level". -/
def specHeadingLevel (hc content : Str) (L : Nat) : Nat :=
  min (leadMarkRun hc content) L

/-- Claim C5 counterexample: for the line `"#a#"` under the `nuHead3`
schema (marker `#`, max level 3) with no previously recorded heading,
the claim's level — the start-run capped at the max level — is 1, which
does not exceed 0 by more than 1, so the claim predicts no error; but
the code counts *all* marker occurrences in the first 3 characters,
computes level 2 and raises `HeadingJump`. -/
theorem heading_level_count_cex :
    detectHeadings nuHead3 ("#a#".toList) 0 {} =
        .error (.headingJump ("#a#".toList) 0 2) ∧
      specHeadingLevel ['#'] ("#a#".toList) 3 = 1 := by
  constructor
  · decide
  · decide

/-! ## Claim C7 -/

/-- Claim C7 counterexample: with block delimiter `%%`, the opener line
`" %%a"` (note the leading space) starts, after trimming, with the
delimiter; the claim says the leading delimiter is stripped, which
would merge the block to `"a\nb"` — but the code drops the first
`len("%%")` characters of the *raw* line, so the delimiter survives and
the extractor yields `"%a\nb"`. -/
theorem block_leading_delimiter_cex :
    readNotes (some ['%', '%']) [(" %%a".toList), ("b%%".toList)] =
        [("%a\nb".toList)] ∧
      ("%a\nb".toList) ≠ ("a\nb".toList) := by
  constructor
  · decide
  · decide

/-! ## Claim C4 counterexample -/

/-- Claim C4 counterexample: in the parser-reachable store `nuDupNames`
(level names `["A", "A"]`), the resolver groups headings by level
*name*, so the level-1 heading `x` takes the level-2 heading `y`
(nindex 1) as its "sibling" and gets `end_nindex = 1`, while the
claim's `min(sibling, ancestor)` over same-*level* headings is
`min(2, 2) = 2`. -/
theorem resolver_duplicate_level_names_cex :
    ((completeHeadings nuDupNames).notes.map (fun n => n.end_nindex) =
        [some 1, some 2, some 3]) ∧
      min (sibAfter [(1, noteHy), (2, noteHz)] noteHx.level 3)
          (ancAfter [(1, noteHy), (2, noteHz)] noteHx.level 3) = 2 ∧
      headingsTagged nuDupNames.notes = [(0, noteHx), (1, noteHy), (2, noteHz)] := by
  refine ⟨by decide, by decide, by decide⟩

/-! ## Claim C2 -/

/-- `NoteUtil.insert` raises its bound-check error before touching the
store, so the carried state is the input store. -/
theorem insertOp_error_state (nu : NoteUtil) (note : Note) (i : Int) (e : NoteErr)
    (st : NoteUtil) (h : insertOp nu note i = .error (e, st)) : st = nu := by
  unfold insertOp at h
  split at h
  · exact absurd h (by simp)
  · injection h with h1; injection h1 with h2 h3; exact h3.symm

/-- `NoteUtil.make_note` raises only before mutating the store
(`_make_note` touches no store state and `insert` checks bounds first),
so the carried state is the input store. -/
theorem makeNote_error_state (nu : NoteUtil) (c : Str) (i : Int) (e : NoteErr)
    (st : NoteUtil) (h : makeNote nu c i = .error (e, st)) : st = nu := by
  unfold makeNote at h
  cases hm : makeNoteP nu c i with
  | error e0 => rw [hm] at h; injection h with h1; injection h1 with h2 h3; exact h3.symm
  | ok note => rw [hm] at h; exact insertOp_error_state _ _ _ _ _ h

/-- Re-inserting a list element at the index it was removed from
restores the list. -/
theorem pyInsertAt_pyRemoveAt_getD (l : List α) (k : Nat) (d : α) (h : k < l.length) :
    pyInsertAt (pyRemoveAt l k) k (l.getD k d) = l := by
  induction l generalizing k with
  | nil => simp at h
  | cons a t ih =>
    cases k with
    | zero => simp [pyRemoveAt, pyInsertAt, List.getD]
    | succ k =>
      simp only [pyRemoveAt, pyInsertAt, List.cons.injEq, true_and]
      have hg : (a :: t).getD (k + 1) d = t.getD k d := by simp [List.getD]
      rw [hg]
      exact ih k (by simpa using h)

/-- A line-parse error is in the `NoteError` family. -/
theorem lineParse_in_noteErrorClass (e : NoteErr) (h : isLineParseErr e = true) :
    isNoteErrorClass e = true := by
  cases e <;> simp [isLineParseErr, isNoteErrorClass] at *

/-- Claim C2 (confirmed): whenever `edit(i, content)` at a non-negative
index raises one of the six line-parse errors, the store's note
sequence after the exception is element-for-element identical to its
state before the call — the `except NoteError` handler re-inserts the
popped Note at position `i`, exactly undoing the `pop`, which was the
only mutation performed. -/
theorem edit_error_restores_notes (nu : NoteUtil) (i : Int) (c : Str) (e : NoteErr)
    (nu' : NoteUtil) (hi : 0 ≤ i) (he : isLineParseErr e = true)
    (h : editOp nu i c = .error (e, nu')) :
    nu'.notes = nu.notes := by
  have hj : pyIdxWrap nu.notes.length i = i := by
    unfold pyIdxWrap; rw [if_neg (by omega)]
  unfold editOp at h
  rw [hj] at h
  dsimp only at h
  split at h
  · rename_i hlt
    cases hm : makeNote { nu with notes := pyRemoveAt nu.notes i.toNat } (pyStrip c) i with
    | ok nu2 => rw [hm] at h; exact absurd h (by simp)
    | error p =>
      obtain ⟨e0, nuE⟩ := p
      have hst := makeNote_error_state _ _ _ _ _ hm
      rw [hm] at h
      dsimp only at h
      by_cases hcls : isNoteErrorClass e0 = true
      · rw [if_pos hcls] at h
        injection h with h1
        injection h1 with h2 h3
        rw [← h3]
        simp only [hst]
        show pyListInsert (pyRemoveAt nu.notes i.toNat) i
          (nu.notes.getD i.toNat dfltNote) = nu.notes
        rw [pyListInsert, if_neg (by omega)]
        exact pyInsertAt_pyRemoveAt_getD _ _ _ (by omega)
      · rw [if_neg hcls] at h
        injection h with h1
        injection h1 with h2 h3
        exfalso
        rw [← h2] at he
        exact hcls (lineParse_in_noteErrorClass e0 he)
  · injection h with h1
    injection h1 with h2 h3
    rw [← h3]

/-- Witness for claim C2: on the two-note store `nuSep2`, editing note 0
to `"x::y::z"` raises `ExtraSeparator`, and the theorem yields that the
post-exception note sequence equals the original one. -/
theorem edit_error_restores_notes_witness :
    editOp nuSep2 0 ("x::y::z".toList) =
        .error (.extraSeparator ("x::y::z".toList), nuSep2) ∧
      nuSep2.notes = nuSep2.notes :=
  ⟨by decide,
   edit_error_restores_notes nuSep2 0 ("x::y::z".toList)
     (.extraSeparator ("x::y::z".toList)) nuSep2 (by decide) (by decide) (by decide)⟩

/-! ## Claim C9 -/

/-- Claim C9 (confirmed): under a schema with only a separator
configured, inserting (via `make_note`) content that splits into
exactly two parts whose stripped left part equals an existing pair's
term raises `DuplicateTerm`, and the store carried by the exception is
the unchanged input store (same note count and sequence). -/
theorem insert_duplicate_term_rejected (nu : NoteUtil) (c sep a b : Str) (i : Int)
    (h1 : nu.heading_char = none) (h2 : nu.category_names = [])
    (h3 : nu.category_prefixes = []) (h4 : nu.extension_names = [])
    (h5 : nu.extension_bounds = []) (h6 : nu.separator = some sep)
    (h7 : pyIn sep c = true) (h8 : pySplit sep c = [a, b])
    (h9 : pyStrip a ∈ (pairsL nu.notes).filterMap (fun n => n.term)) :
    makeNote nu c i = .error (.duplicateTerm (pyStrip a), nu) := by
  have hH : detectHeadings nu c i { nindex := i } = .ok (c, { nindex := i }) := by
    simp [detectHeadings, h1]
  have hC : detectCategories nu c { nindex := i } = (c, { nindex := i }) := by
    simp [detectCategories, h2]
  have hE : detectExtensions nu c { nindex := i } = .ok (c, { nindex := i }) := by
    simp [detectExtensions, h4, pure, Except.pure]
  have hP : detectPairs nu c { nindex := i } = .error (.duplicateTerm (pyStrip a)) := by
    simp [detectPairs, h6, h7, h8, h9]
  have hM : makeNoteP nu c i = .error (.duplicateTerm (pyStrip a)) := by
    simp [makeNoteP, hH, hC, hE, hP, Bind.bind, Except.bind]
  simp [makeNote, hM]

/-- Witness for claim C9: inserting `"x :: z"` into the one-pair store
`nuOnePair` (existing term `x`) raises `DuplicateTerm "x"` and leaves
the store unchanged. -/
theorem insert_duplicate_term_rejected_witness :
    makeNote nuOnePair ("x :: z".toList) 1 =
      .error (.duplicateTerm ['x'], nuOnePair) :=
  insert_duplicate_term_rejected nuOnePair ("x :: z".toList) [':', ':']
    ("x ".toList) (" z".toList) 1 (by decide) (by decide) (by decide) (by decide)
    (by decide) (by decide) (by decide) (by decide) (by decide)

/-! ## Claim C10 -/

/-- The non-overlapping count of a substring never exceeds the length
of the scanned string. -/
theorem pyCountGo_le_length (sub : Str) (fuel : Nat) (s : Str) :
    pyCountGo sub fuel s ≤ s.length := by
  induction fuel generalizing s with
  | zero => simp [pyCountGo]
  | succ f ih =>
    cases s with
    | nil => simp [pyCountGo]
    | cons c rest =>
      simp only [pyCountGo, List.length_cons]
      split
      · have h := ih (List.drop (sub.length - 1) rest)
        simp only [List.length_drop] at h
        omega
      · have h := ih rest
        omega

/-- Claim C10 (confirmed): for a schema whose heading marker is a
single character, with `levels = L = |level_names| ≥ 1` (as read from
the config), and any line starting with the marker character, the
computed level satisfies `1 ≤ level ≤ L`, the `level_names[level - 1]`
lookup is in bounds, and heading detection never fails with an
out-of-range level-name access. -/
theorem heading_level_name_lookup_safe (nu : NoteUtil) (ch : Char) (content : Str)
    (hcfg : nu.heading_char = some [ch]) (hL : nu.levels = nu.level_names.length)
    (hL1 : 1 ≤ nu.level_names.length) (hpre : [ch].isPrefixOf content = true) :
    1 ≤ pyCountSlice [ch] content nu.levels ∧
      pyCountSlice [ch] content nu.levels ≤ nu.level_names.length ∧
      (pyGet nu.level_names ((pyCountSlice [ch] content nu.levels : Int) - 1)).isSome = true ∧
      ∀ (k : Note) (i m : Int), detectHeadings nu content i k ≠ .error (.indexErr m) := by
  obtain ⟨c0, rest, rfl⟩ : ∃ c0 rest, content = c0 :: rest := by
    cases content with
    | nil => simp [List.isPrefixOf] at hpre
    | cons c0 rest => exact ⟨c0, rest, rfl⟩
  have hc0 : ch = c0 := by simpa [List.isPrefixOf] using hpre
  subst hc0
  have hlo : 1 ≤ pyCountSlice [ch] (ch :: rest) nu.levels := by
    rw [pyCountSlice, pyCountNO]
    obtain ⟨L1, hL1'⟩ : ∃ L1, nu.levels = L1 + 1 := ⟨nu.level_names.length - 1, by omega⟩
    rw [hL1']
    simp only [List.take_succ_cons, List.length_cons]
    rw [pyCountGo]
    simp [List.isPrefixOf]
  have hhi : pyCountSlice [ch] (ch :: rest) nu.levels ≤ nu.level_names.length := by
    rw [pyCountSlice, pyCountNO]
    calc pyCountGo [ch] ((ch :: rest).take nu.levels).length ((ch :: rest).take nu.levels)
        ≤ ((ch :: rest).take nu.levels).length := pyCountGo_le_length _ _ _
      _ ≤ nu.levels := by simp [List.length_take]
      _ = nu.level_names.length := hL
  have ht : ((pyCountSlice [ch] (ch :: rest) nu.levels : Int) - 1).toNat =
      pyCountSlice [ch] (ch :: rest) nu.levels - 1 := by omega
  have hlt : pyCountSlice [ch] (ch :: rest) nu.levels - 1 < nu.level_names.length := by
    omega
  have hsome : (pyGet nu.level_names
      ((pyCountSlice [ch] (ch :: rest) nu.levels : Int) - 1)).isSome = true := by
    rw [pyGet, if_pos (by omega), ht]
    simp [List.getElem?_eq_getElem hlt]
  obtain ⟨lname, hlname⟩ := Option.isSome_iff_exists.mp hsome
  refine ⟨hlo, hhi, hsome, ?_⟩
  intro k i m
  rw [detectHeadings, hcfg]
  simp only [hpre, if_true]
  rw [hlname]
  split
  · rename_i heq
    simp at heq
  · split
    · simp
    · split
      · simp
      · simp

/-- Witness for claim C10: line `"##x"` under the `nuHead3` schema has
level 2 and a safe level-name lookup. -/
theorem heading_level_name_lookup_safe_witness :
    1 ≤ pyCountSlice ['#'] ("##x".toList) nuHead3.levels ∧
      detectHeadings nuHead3 ("##x".toList) 0 dfltNote ≠ .error (.indexErr 1) := by
  have h := heading_level_name_lookup_safe nuHead3 '#' ("##x".toList)
    (by decide) (by decide) (by decide) (by decide)
  exact ⟨h.1, h.2.2.2 dfltNote 0 1⟩

/-! ## Claim C8 -/

/-- Claim C8 (confirmed): (1) under the `nuTag` schema (bounds `[`/`]`
named "tag", no separator), parsing `"Answer [tag:important] is 42"`
yields residual content `"Answer is 42"` and exactly one Extension with
text `"tag:important"` and name `"tag"`; (2) in general, one extraction
step removes the bounded span (both bounds included) from the content,
rejoins the two (stripped) sides with a single space and records the
trimmed enclosed text; and (3) a left bound with no following right
bound raises `MissingBound`. -/
theorem extension_extraction_ok :
    (makeNoteP nuTag ("Answer [tag:important] is 42".toList) 0 =
      .ok { content := ("Answer is 42".toList), nindex := 0,
            extensions := [⟨("tag:important".toList), ("tag".toList), ['['], [']']⟩],
            extension_names := [("tag".toList)],
            extension_bounds := [(['['], [']'])] }) ∧
    (∀ (name lb rb : Str) (fuel : Nat) (content : Str) (k : Note) (i j : Nat),
      pyFind lb content = some i →
      pyFind rb (content.drop (i + lb.length)) = some j →
      extScan name lb rb (fuel + 1) content k =
        extScan name lb rb fuel
          (pyStrip (content.take i) ++ ' ' ::
            pyStrip (content.drop (i + lb.length + j + rb.length)))
          (if name ∈ k.extension_names then
            { k with extensions := k.extensions ++
                [⟨pyStrip ((content.drop (i + lb.length)).take j), name, lb, rb⟩] }
          else
            { k with
              extensions := k.extensions ++
                [⟨pyStrip ((content.drop (i + lb.length)).take j), name, lb, rb⟩],
              extension_names := k.extension_names ++ [name] })) ∧
    (∀ (name lb rb : Str) (fuel : Nat) (content : Str) (k : Note) (i : Nat),
      pyFind lb content = some i →
      pyFind rb (content.drop (i + lb.length)) = none →
      extScan name lb rb (fuel + 1) content k = .error (.missingBound content lb rb)) := by
  refine ⟨by decide, ?_, ?_⟩
  · intro name lb rb fuel content k i j h1 h2
    simp only [extScan, h1, h2]
  · intro name lb rb fuel content k i h1 h2
    simp only [extScan, h1, h2]

/-- Witness for claim C8's hypotheses: on `"a [x"` the left bound at
index 2 has no following right bound, so the scan raises
`MissingBound`. -/
theorem extension_extraction_ok_witness :
    extScan ("tag".toList) ['['] [']'] 1 ("a [x".toList) dfltNote =
      .error (.missingBound ("a [x".toList) ['['] [']']) :=
  extension_extraction_ok.2.2 ("tag".toList) ['['] [']'] 0 ("a [x".toList) dfltNote 2
    (by decide) (by decide)

/-! ## Claim C3 (amended) -/

/-- Claim C3 as amended by `pair_empty_term_accepted_cex`: when the
separator occurs in the content, pair detection raises `ExtraSeparator`
if splitting yields more than two parts; otherwise (when the stripped
left part does not duplicate an existing pair's term) it raises
`NoDefinition` iff the stripped *right* part is empty — an empty
stripped term alone is accepted — and otherwise the term is the left
part stripped and the definition the right part stripped. -/
theorem detect_pairs_characterization (nu : NoteUtil) (sep c a b : Str) (k : Note)
    (hsep : nu.separator = some sep) (hin : pyIn sep c = true) :
    ((pySplit sep c).length > 2 → detectPairs nu c k = .error (.extraSeparator c)) ∧
    (pySplit sep c = [a, b] →
      pyStrip a ∉ (pairsL nu.notes).filterMap (fun n => n.term) →
      ((pyStrip b = [] → detectPairs nu c k = .error (.noDefinition c)) ∧
       (pyStrip b ≠ [] →
         detectPairs nu c k =
           .ok { k with
                  term := some (pyStrip a),
                  definition := some (pyStrip b),
                  separator := some sep }))) := by
  refine ⟨?_, ?_⟩
  · intro hlen
    simp [detectPairs, hsep, hin, hlen]
  · intro hs hmem
    refine ⟨?_, ?_⟩
    · intro hb
      simp [detectPairs, hsep, hin, hs, hmem, hb]
    · intro hb
      simp [detectPairs, hsep, hin, hs, hmem, hb]


/-- Witness for claim C3: the line `"x::"` (empty definition) raises
`NoDefinition`. -/
theorem detect_pairs_characterization_witness :
    detectPairs nuSepOnly ("x::".toList) dfltNote =
      .error (.noDefinition ("x::".toList)) :=
  ((detect_pairs_characterization nuSepOnly [':', ':'] ("x::".toList) ['x'] [] dfltNote
      (by decide) (by decide)).2 (by decide) (by decide)).1 (by decide)

/-! ## Claim C5 (amended) -/

/-- Claim C5 as amended by `heading_level_count_cex`: for a line
starting with the configured marker, the computed level is the number
of non-overlapping marker occurrences within the first `levels`
characters of the line (which coincides with the start-run capped at
`levels` whenever the marker does not reappear inside that window), and
— given the level-name lookup is in bounds — the parser fails with
`HeadingJump` exactly when that level exceeds the level of the most
recently recorded heading (0 if none) by more than 1; on success the
note's `level` field is that level. -/
theorem heading_level_and_jump_characterization (nu : NoteUtil) (hc content : Str)
    (nindex : Int) (k : Note)
    (hcfg : nu.heading_char = some hc) (hpre : hc.isPrefixOf content = true)
    (hname : (pyGet nu.level_names
      ((pyCountSlice hc content nu.levels : Int) - 1)).isSome = true) :
    (detectHeadings nu content nindex k =
        .error (.headingJump content (prevHeadingLevel nu.notes)
          (pyCountSlice hc content nu.levels)) ↔
      (pyCountSlice hc content nu.levels : Int) - (prevHeadingLevel nu.notes : Int) > 1) ∧
    (∀ (c' : Str) (k' : Note), detectHeadings nu content nindex k = .ok (c', k') →
      k'.level = pyCountSlice hc content nu.levels) := by
  obtain ⟨lname, hlname⟩ := Option.isSome_iff_exists.mp hname
  rw [detectHeadings, hcfg]
  simp only [hpre, if_true, hlname]
  constructor
  · by_cases hj : (pyCountSlice hc content nu.levels : Int) -
        (prevHeadingLevel nu.notes : Int) > 1
    · simp [hj]
    · rw [if_neg hj]
      simp only [hj, iff_false]
      split
      · simp
      · simp
  · intro c' k' h
    split at h
    · exact absurd h (by simp)
    · split at h
      · exact absurd h (by simp)
      · injection h with h1
        injection h1 with h2 h3
        rw [← h3]

/-- Witness for claim C5: `"###x"` on an empty `nuHead3` store has
level 3, previous level 0, and jumps. -/
theorem heading_level_and_jump_characterization_witness :
    detectHeadings nuHead3 ("###x".toList) 0 dfltNote =
      .error (.headingJump ("###x".toList) 0 3) :=
  (heading_level_and_jump_characterization nuHead3 ['#'] ("###x".toList) 0 dfltNote
      (by decide) (by decide) (by decide)).1.mpr (by decide)

/-! ## Claim C6 -/

theorem pyInsertAt_length (l : List α) (k : Nat) (x : α) (h : k ≤ l.length) :
    (pyInsertAt l k x).length = l.length + 1 := by
  induction l generalizing k with
  | nil =>
    cases k with
    | zero => simp [pyInsertAt]
    | succ k => simp [pyInsertAt]
  | cons a t ih =>
    cases k with
    | zero => simp [pyInsertAt]
    | succ k => simp [pyInsertAt, ih k (by simpa using h)]

theorem pyInsertAt_getD_lt (l : List α) (k p : Nat) (x : α) (d : α) (hp : p < k)
    (hk : k ≤ l.length) :
    (pyInsertAt l k x).getD p d = l.getD p d := by
  induction l generalizing k p with
  | nil => simp at hk; omega
  | cons a t ih =>
    cases k with
    | zero => omega
    | succ k =>
      cases p with
      | zero => simp [pyInsertAt, List.getD]
      | succ p =>
        simp only [pyInsertAt, List.getD_cons_succ]
        exact ih k p (by omega) (by simpa using hk)

theorem pyInsertAt_getD_succ (l : List α) (k p : Nat) (x : α) (d : α)
    (hk : k ≤ l.length) (hp : k ≤ p) :
    (pyInsertAt l k x).getD (p + 1) d = l.getD p d := by
  induction l generalizing k p with
  | nil =>
    cases k with
    | zero => simp [pyInsertAt, List.getD]
    | succ k => simp at hk
  | cons a t ih =>
    cases k with
    | zero => simp [pyInsertAt, List.getD]
    | succ k =>
      cases p with
      | zero => omega
      | succ p =>
        simp only [pyInsertAt, List.getD_cons_succ]
        exact ih k p (by simpa using hk) (by omega)

theorem pyRemoveAt_length (l : List α) (k : Nat) (h : k < l.length) :
    (pyRemoveAt l k).length = l.length - 1 := by
  induction l generalizing k with
  | nil => simp at h
  | cons a t ih =>
    cases k with
    | zero => simp [pyRemoveAt]
    | succ k =>
      simp only [pyRemoveAt, List.length_cons]
      rw [ih k (by simpa using h)]
      have : 1 ≤ t.length := by simp at h; omega
      omega

theorem pyRemoveAt_getD_lt (l : List α) (k p : Nat) (d : α) (hp : p < k) :
    (pyRemoveAt l k).getD p d = l.getD p d := by
  induction l generalizing k p with
  | nil => simp [pyRemoveAt]
  | cons a t ih =>
    cases k with
    | zero => omega
    | succ k =>
      cases p with
      | zero => simp [pyRemoveAt, List.getD]
      | succ p => simp only [pyRemoveAt, List.getD_cons_succ]; exact ih k p (by omega)

theorem pyRemoveAt_getD_ge (l : List α) (k p : Nat) (d : α) (hp : k ≤ p) :
    (pyRemoveAt l k).getD p d = l.getD (p + 1) d := by
  induction l generalizing k p with
  | nil => simp [pyRemoveAt, List.getD]
  | cons a t ih =>
    cases k with
    | zero => simp [pyRemoveAt, List.getD]
    | succ k =>
      cases p with
      | zero => omega
      | succ p =>
        simp only [pyRemoveAt, List.getD_cons_succ]
        exact ih k p (by omega)

theorem bumpPrevHeading_length (notes : List Note) (n : Note) (d : Int) :
    (bumpPrevHeading notes n d).length = notes.length := by
  rw [bumpPrevHeading]
  cases prevHeadingIdx notes n with
  | none => rfl
  | some j => simp

theorem bumpPrevHeading_nindex (notes : List Note) (n : Note) (d : Int) (p : Nat)
    (hp : p < notes.length) :
    ((bumpPrevHeading notes n d).getD p dfltNote).nindex =
      (notes.getD p dfltNote).nindex := by
  rw [bumpPrevHeading]
  cases prevHeadingIdx notes n with
  | none => rfl
  | some j =>
    rw [List.getD_eq_getElem?_getD, List.getElem?_map, List.getElem?_enum,
      List.getElem?_eq_getElem hp]
    simp only [Option.map_some', Option.getD_some]
    rw [List.getD_eq_getElem notes dfltNote hp]
    by_cases hj : p = j
    · cases hE : notes[p].end_nindex <;> simp [hj, hE]
    · simp [hj]

theorem completeHeadings_length (nu : NoteUtil) :
    (completeHeadings nu).notes.length = nu.notes.length := by
  rw [completeHeadings]
  cases h : nu.heading_char <;> simp

theorem completeHeadings_getD (nu : NoteUtil) (hc : Str)
    (hcfg : nu.heading_char = some hc) (p : Nat) (hp : p < nu.notes.length) :
    (completeHeadings nu).notes.getD p dfltNote =
      (if isHeading (nu.notes.getD p dfltNote) then
        { nu.notes.getD p dfltNote with
          end_nindex := some (endForN nu p (nu.notes.getD p dfltNote)) }
      else nu.notes.getD p dfltNote) := by
  rw [completeHeadings, hcfg]
  rw [List.getD_eq_getElem?_getD, List.getElem?_map, List.getElem?_enum,
    List.getElem?_eq_getElem hp]
  simp only [Option.map_some', Option.getD_some]
  rw [List.getD_eq_getElem nu.notes dfltNote hp]

theorem completeHeadings_nindex (nu : NoteUtil) (p : Nat) (hp : p < nu.notes.length) :
    ((completeHeadings nu).notes.getD p dfltNote).nindex =
      (nu.notes.getD p dfltNote).nindex := by
  cases hcfg : nu.heading_char with
  | none => rw [completeHeadings, hcfg]
  | some hc =>
    rw [completeHeadings_getD nu hc hcfg p hp]
    split
    · rfl
    · rfl

/-- A store is consistent when each note's `nindex` equals its list
position. -/
def nindexConsistent (nu : NoteUtil) : Prop :=
  ∀ p, p < nu.notes.length → (nu.notes.getD p dfltNote).nindex = (p : Int)

theorem insert_shift_aux (nu : NoteUtil) (hcons : nindexConsistent nu)
    (note : Note) (i : Int) (nu' : NoteUtil) (h : insertOp nu note i = .ok nu') :
    nu'.notes.length = nu.notes.length + 1 ∧
    (∀ p, p < nu.notes.length → (nu.notes.getD p dfltNote).nindex < i →
      (nu'.notes.getD p dfltNote).nindex = (nu.notes.getD p dfltNote).nindex) ∧
    (∀ p, p < nu.notes.length → i ≤ (nu.notes.getD p dfltNote).nindex →
      (nu'.notes.getD (p + 1) dfltNote).nindex = (nu.notes.getD p dfltNote).nindex + 1) := by
  rw [insertOp] at h
  dsimp only at h
  split at h
  case isFalse => exact absurd h (by simp)
  case isTrue hb =>
    injection h with h1
    subst h1
    obtain ⟨hb1, hb2⟩ := hb
    have hiN : i.toNat ≤ nu.notes.length := by omega
    have hlen1 : (pyInsertAt nu.notes i.toNat note).length = nu.notes.length + 1 :=
      pyInsertAt_length _ _ _ hiN
    have hlen2 : (bumpPrevHeading (pyInsertAt nu.notes i.toNat note) note 1).length =
        nu.notes.length + 1 := by rw [bumpPrevHeading_length]; exact hlen1
    have hlen3 : ((bumpPrevHeading (pyInsertAt nu.notes i.toNat note) note 1).enum.map
        (fun q =>
          if i + 1 ≤ (q.1 : Int) then
            let m := { q.2 with nindex := q.2.nindex + 1 }
            if isHeading m then { m with begin_nindex := some (m.nindex + 1) } else m
          else q.2)).length = nu.notes.length + 1 := by
      rw [List.length_map, List.enum_length]; exact hlen2
    refine ⟨?_, ?_, ?_⟩
    · rw [completeHeadings_length]; exact hlen3
    · intro p hp hlt
      have hpi : p < i.toNat := by
        have := hcons p hp; omega
      have hp3 : p < nu.notes.length + 1 := by omega
      rw [completeHeadings_nindex _ p (by rw [hlen3]; omega)]
      show ((_ : List Note).getD p dfltNote).nindex = _
      rw [List.getD_eq_getElem?_getD, List.getElem?_map, List.getElem?_enum,
        List.getElem?_eq_getElem (by rw [hlen2]; omega : p < _)]
      simp only [Option.map_some', Option.getD_some]
      rw [if_neg (by have := hcons p hp; omega)]
      rw [← List.getD_eq_getElem _ dfltNote]
      rw [bumpPrevHeading_nindex _ _ _ p (by omega : p < _)]
      rw [pyInsertAt_getD_lt _ _ _ _ _ hpi hiN]
    · intro p hp hge
      have hpi : i.toNat ≤ p := by
        have := hcons p hp; omega
      rw [completeHeadings_nindex _ (p + 1) (by rw [hlen3]; omega)]
      show ((_ : List Note).getD (p + 1) dfltNote).nindex = _
      rw [List.getD_eq_getElem?_getD, List.getElem?_map, List.getElem?_enum,
        List.getElem?_eq_getElem (by rw [hlen2]; omega : p + 1 < _)]
      simp only [Option.map_some', Option.getD_some]
      rw [if_pos (by have := hcons p hp; push_cast; omega)]
      have hnx : ∀ x : Note,
          (if isHeading { x with nindex := x.nindex + 1 } then
            { x with nindex := x.nindex + 1,
                     begin_nindex := some ({ x with nindex := x.nindex + 1 }.nindex + 1) }
          else { x with nindex := x.nindex + 1 }).nindex = x.nindex + 1 := by
        intro x
        split
        · rfl
        · rfl
      rw [hnx]
      rw [← List.getD_eq_getElem _ dfltNote]
      rw [bumpPrevHeading_nindex _ _ _ (p + 1) (by omega : p + 1 < _)]
      rw [pyInsertAt_getD_succ _ _ _ _ _ hiN hpi]

theorem delete_shift_aux (nu : NoteUtil) (hcons : nindexConsistent nu)
    (i : Int) (nu' : NoteUtil) (h : deleteOp nu i = .ok nu') :
    nu'.notes.length = nu.notes.length - 1 ∧
    (∀ p, p < nu.notes.length → (nu.notes.getD p dfltNote).nindex < i →
      (nu'.notes.getD p dfltNote).nindex = (nu.notes.getD p dfltNote).nindex) ∧
    (∀ p, p < nu.notes.length → i < (nu.notes.getD p dfltNote).nindex →
      (nu'.notes.getD (p - 1) dfltNote).nindex = (nu.notes.getD p dfltNote).nindex - 1) := by
  rw [deleteOp] at h
  dsimp only at h
  split at h
  case isFalse => exact absurd h (by simp)
  case isTrue hb =>
    injection h with h1
    subst h1
    obtain ⟨hb1, hb2⟩ := hb
    have hiN : i.toNat < nu.notes.length := by omega
    have hlen1 : (bumpPrevHeading nu.notes (nu.notes.getD i.toNat dfltNote) (-1)).length =
        nu.notes.length := bumpPrevHeading_length _ _ _
    have hlen2 : (pyRemoveAt
        (bumpPrevHeading nu.notes (nu.notes.getD i.toNat dfltNote) (-1)) i.toNat).length =
        nu.notes.length - 1 := by
      rw [pyRemoveAt_length _ _ (by omega)]; rw [hlen1]
    have hlen3 : ((pyRemoveAt
        (bumpPrevHeading nu.notes (nu.notes.getD i.toNat dfltNote) (-1)) i.toNat).enum.map
        (fun q =>
          if i ≤ (q.1 : Int) then
            let m := { q.2 with nindex := q.2.nindex - 1 }
            if isHeading m then { m with begin_nindex := m.begin_nindex.map (· - 1) } else m
          else q.2)).length = nu.notes.length - 1 := by
      rw [List.length_map, List.enum_length]; exact hlen2
    refine ⟨?_, ?_, ?_⟩
    · rw [completeHeadings_length]; exact hlen3
    · intro p hp hlt
      have hpi : p < i.toNat := by
        have := hcons p hp; omega
      rw [completeHeadings_nindex _ p (by rw [hlen3]; omega)]
      show ((_ : List Note).getD p dfltNote).nindex = _
      rw [List.getD_eq_getElem?_getD, List.getElem?_map, List.getElem?_enum,
        List.getElem?_eq_getElem (by rw [hlen2]; omega : p < _)]
      simp only [Option.map_some', Option.getD_some]
      rw [if_neg (by have := hcons p hp; omega)]
      rw [← List.getD_eq_getElem _ dfltNote]
      rw [pyRemoveAt_getD_lt _ _ _ _ hpi]
      rw [bumpPrevHeading_nindex _ _ _ p (by omega)]
    · intro p hp hgt
      have hpi : i.toNat < p := by
        have := hcons p hp; omega
      rw [completeHeadings_nindex _ (p - 1) (by rw [hlen3]; omega)]
      show ((_ : List Note).getD (p - 1) dfltNote).nindex = _
      rw [List.getD_eq_getElem?_getD, List.getElem?_map, List.getElem?_enum,
        List.getElem?_eq_getElem (by rw [hlen2]; omega : p - 1 < _)]
      simp only [Option.map_some', Option.getD_some]
      rw [if_pos (by have := hcons p hp; omega)]
      have hnx : ∀ x : Note,
          (if isHeading { x with nindex := x.nindex - 1 } then
            { x with nindex := x.nindex - 1,
                     begin_nindex := ({ x with nindex := x.nindex - 1 } : Note).begin_nindex.map
                       (· - 1) }
          else { x with nindex := x.nindex - 1 }).nindex = x.nindex - 1 := by
        intro x
        split
        · rfl
        · rfl
      rw [hnx]
      rw [← List.getD_eq_getElem _ dfltNote]
      rw [pyRemoveAt_getD_ge _ _ _ _ (by omega)]
      have hps : p - 1 + 1 = p := by omega
      rw [hps]
      rw [bumpPrevHeading_nindex _ _ _ p (by omega)]

/-- Claim C6 (confirmed): on a consistent store, a successful insert at
`i` increases the nindex of every Note previously at nindex `≥ i` by
exactly 1 (it moves one position right) and leaves the nindex of every
Note with nindex `< i` unchanged; a successful delete at `i` decreases
the nindex of every Note previously at nindex `> i` by exactly 1 (it
moves one position left) and leaves every nindex `< i` unchanged — the
exact inverse shift. -/
theorem insert_delete_nindex_shift (nu : NoteUtil) (hcons : nindexConsistent nu) :
    (∀ (note : Note) (i : Int) (nu' : NoteUtil), insertOp nu note i = .ok nu' →
      nu'.notes.length = nu.notes.length + 1 ∧
      (∀ p, p < nu.notes.length → (nu.notes.getD p dfltNote).nindex < i →
        (nu'.notes.getD p dfltNote).nindex = (nu.notes.getD p dfltNote).nindex) ∧
      (∀ p, p < nu.notes.length → i ≤ (nu.notes.getD p dfltNote).nindex →
        (nu'.notes.getD (p + 1) dfltNote).nindex =
          (nu.notes.getD p dfltNote).nindex + 1)) ∧
    (∀ (i : Int) (nu' : NoteUtil), deleteOp nu i = .ok nu' →
      nu'.notes.length = nu.notes.length - 1 ∧
      (∀ p, p < nu.notes.length → (nu.notes.getD p dfltNote).nindex < i →
        (nu'.notes.getD p dfltNote).nindex = (nu.notes.getD p dfltNote).nindex) ∧
      (∀ p, p < nu.notes.length → i < (nu.notes.getD p dfltNote).nindex →
        (nu'.notes.getD (p - 1) dfltNote).nindex =
          (nu.notes.getD p dfltNote).nindex - 1)) :=
  ⟨fun note i nu' h => insert_shift_aux nu hcons note i nu' h,
   fun i nu' h => delete_shift_aux nu hcons i nu' h⟩

/-- The result of inserting a parsed note `"c"` at position 1 of
`nuPlain2`. -/
def nuIns : NoteUtil :=
  match insertOp nuPlain2 { content := ['c'], nindex := 1 } 1 with
  | .ok s => s
  | .error _ => nuPlain2

/-- Witness for claim C6: inserting at position 1 of the consistent
two-note store `nuPlain2` grows it to three notes, keeps the nindex at
position 0, and shifts the old position-1 note's nindex up by 1. -/
theorem insert_delete_nindex_shift_witness :
    nuIns.notes.length = nuPlain2.notes.length + 1 ∧
      (nuIns.notes.getD 0 dfltNote).nindex = (nuPlain2.notes.getD 0 dfltNote).nindex ∧
      (nuIns.notes.getD 2 dfltNote).nindex =
        (nuPlain2.notes.getD 1 dfltNote).nindex + 1 := by
  have h := (insert_delete_nindex_shift nuPlain2
      (by unfold nindexConsistent; decide)).1
    { content := ['c'], nindex := 1 } 1 nuIns (by decide)
  exact ⟨h.1, h.2.1 0 (by decide) (by decide), h.2.2 1 (by decide) (by decide)⟩

/-! ## Claim C7 (amended) -/

/-- The merged block text: the opening fragment followed by every
absorbed raw line, each preceded by one line break. -/
def joinNL (first : Str) (ls : List Str) : Str :=
  first ++ (ls.map (fun x => '\n' :: x)).flatten

/-- The absorption loop consumes exactly the raw lines up to and
including the first whose trimmed form ends with the delimiter, and
joins them with line breaks. -/
theorem absorb_spec (b : Str) (pre : List Str) (z : Str) (post : List Str) (line : Str)
    (hpre : ∀ x ∈ pre, b.isSuffixOf (pyStrip x) = false)
    (hz : b.isSuffixOf (pyStrip z) = true) :
    absorb b line (pre ++ z :: post) = (joinNL line (pre ++ [z]), post) := by
  induction pre generalizing line with
  | nil =>
    simp only [List.nil_append, absorb, hz, if_true, joinNL]
    simp
  | cons x pre ih =>
    have hx : b.isSuffixOf (pyStrip x) = false := hpre x (by simp)
    simp only [List.cons_append, absorb, hx, Bool.false_eq_true, if_false]
    simp only [List.append_eq]
    rw [ih _ (fun y hy => hpre y (by simp [hy]))]
    simp [joinNL]

/-- `readNotesGo` is fuel-invariant once the fuel covers the number of
remaining raw lines. -/
theorem readNotesGo_fuel (blocks : Option Str) (f g : Nat) (ls : List Str)
    (hf : ls.length ≤ f) (hg : ls.length ≤ g) :
    readNotesGo blocks f ls = readNotesGo blocks g ls := by
  induction f generalizing g ls with
  | zero =>
    have : ls = [] := by
      cases ls with
      | nil => rfl
      | cons a t => simp at hf
    subst this
    cases g with
    | zero => rfl
    | succ g => rfl
  | succ f ih =>
    cases ls with
    | nil =>
      cases g with
      | zero => rfl
      | succ g => rfl
    | cons l rest =>
      cases g with
      | zero => simp at hg
      | succ g =>
        simp only [readNotesGo]
        cases blocks with
        | none =>
          rw [ih g rest (by simp at hf; omega) (by simp at hg; omega)]
        | some b =>
          by_cases hs : b.isPrefixOf (pyStrip l) = true
          · simp only [hs, if_true]
            have hm := absorb_rest_le b (l.drop b.length) rest
            rw [ih g _ (by simp at hf; omega) (by simp at hg; omega)]
          · dsimp only
            rw [if_neg hs, if_neg hs]
            rw [ih g rest (by simp at hf; omega) (by simp at hg; omega)]

/-- Claim C7 as amended by `block_leading_delimiter_cex`: when a raw
line trim-starts with the configured delimiter, the extractor drops the
first `len(delimiter)` characters of the *raw* opener (the delimiter
itself whenever the line has no leading whitespace), absorbs subsequent
raw lines joined by a line break until one trim-ends with the
delimiter, drops the final `len(delimiter)` characters of the merged
text, and yields the merged text (trimmed) as one single logical line,
after which extraction continues on the remaining lines. -/
theorem block_merge_characterization (b l z : Str) (pre post : List Str)
    (hstart : b.isPrefixOf (pyStrip l) = true)
    (hpre : ∀ x ∈ pre, b.isSuffixOf (pyStrip x) = false)
    (hz : b.isSuffixOf (pyStrip z) = true) :
    readNotes (some b) (l :: (pre ++ z :: post)) =
      (let merged := pyTakeButLast b.length (joinNL (l.drop b.length) (pre ++ [z]))
       if merged = [] then [] else [pyStrip merged]) ++ readNotes (some b) post := by
  rw [readNotes, readNotes]
  simp only [List.length_cons]
  rw [readNotesGo]
  simp only [hstart, if_true]
  rw [absorb_spec b pre z post _ hpre hz]
  have hlen : post.length ≤ (pre ++ z :: post).length := by simp; omega
  rw [readNotesGo_fuel (some b) (pre ++ z :: post).length post.length post (by omega) (by omega)]

/-- Witness for claim C7: with delimiter `%%`, the two raw lines
`"%%a"` and `"b%%"` merge into the single logical line `"a\nb"`. -/
theorem block_merge_characterization_witness :
    readNotes (some ['%', '%']) [("%%a".toList), ("b%%".toList)] = [("a\nb".toList)] := by
  have h := block_merge_characterization ['%', '%'] ("%%a".toList) ("b%%".toList) [] []
    (by decide) (by simp) (by decide)
  simp only [List.nil_append] at h
  rw [h]
  decide

/-! ## Claim C4 (amended): the heading resolver -/

theorem find?_split {α : Type} (f : α → Bool) (l : List α) (a : α)
    (h : l.find? f = some a) :
    ∃ s t, l = s ++ a :: t ∧ ∀ x ∈ s, f x = false := by
  induction l with
  | nil => simp [List.find?] at h
  | cons b l ih =>
    rw [List.find?] at h
    cases hb : f b with
    | true =>
      rw [hb] at h
      injection h with h1
      exact ⟨[], l, by rw [h1]; rfl, by simp⟩
    | false =>
      rw [hb] at h
      obtain ⟨s, t, hl, hs⟩ := ih h
      exact ⟨b :: s, t, by rw [hl]; rfl, by
        intro x hx
        rcases List.mem_cons.mp hx with h1 | h1
        · rw [h1]; exact hb
        · exact hs x h1⟩

theorem find?_of_prefix_fail {α : Type} (f : α → Bool) (s t : List α) (a : α)
    (hs : ∀ x ∈ s, f x = false) (ha : f a = true) :
    (s ++ a :: t).find? f = some a := by
  induction s with
  | nil => simp [List.find?, ha]
  | cons b s ih =>
    have hb : f b = false := hs b (by simp)
    simp only [List.cons_append, List.find?, hb]
    exact ih (fun x hx => hs x (by simp [hx]))

theorem filter_head? {α : Type} (f : α → Bool) (l : List α) :
    (l.filter f).head? = l.find? f := by
  induction l with
  | nil => rfl
  | cons b l ih =>
    rw [List.filter, List.find?]
    cases hb : f b with
    | true => rfl
    | false => exact ih

theorem pyListIndex_append_not_mem (l1 l2 : List (Nat × Note)) (a : Nat × Note)
    (h : a ∉ l1) : pyListIndex (l1 ++ a :: l2) a = l1.length := by
  induction l1 with
  | nil => simp [pyListIndex]
  | cons b l1 ih =>
    have hab : b ≠ a := by intro he; exact h (by simp [he])
    simp only [List.cons_append, List.length_cons, pyListIndex, hab, if_false]
    simp only [List.append_eq]
    rw [ih (fun hm => h (by simp [hm]))]
    omega

theorem getD_append_right {α : Type} (l1 l2 : List α) (k : Nat) (d : α) :
    (l1 ++ l2).getD (l1.length + k) d = l2.getD k d := by
  rw [List.getD_eq_getElem?_getD, List.getD_eq_getElem?_getD,
    List.getElem?_append_right (by omega)]
  have hk : l1.length + k - l1.length = k := by omega
  rw [hk]

theorem headingsTagged_sublist (notes : List Note) :
    List.Sublist (headingsTagged notes) notes.enum :=
  List.filter_sublist _

theorem headingsTagged_pairwise (notes : List Note) :
    (headingsTagged notes).Pairwise (fun a b => a.1 < b.1) := by
  have henum : (notes.enum).Pairwise (fun a b => a.1 < b.1) := by
    have h1 : (notes.enum.map Prod.fst).Pairwise (· < ·) := by
      rw [List.enum_map_fst]
      exact List.pairwise_lt_range notes.length
    exact (List.pairwise_map.mp h1)
  exact henum.sublist (headingsTagged_sublist notes)

theorem headingsTagged_mem_facts (nu : NoteUtil) (hcons : nindexConsistent nu)
    (x : Nat × Note) (hx : x ∈ headingsTagged nu.notes) :
    x.1 < nu.notes.length ∧ nu.notes.getD x.1 dfltNote = x.2 ∧
      x.2.nindex = (x.1 : Int) ∧ isHeading x.2 = true := by
  rw [headingsTagged, List.mem_filter] at hx
  obtain ⟨hmem, hhead⟩ := hx
  have hget : nu.notes[x.1]? = some x.2 := by
    have := List.mk_mem_enum_iff_getElem?.mp (show (x.1, x.2) ∈ nu.notes.enum from hmem)
    exact this
  have hlt : x.1 < nu.notes.length := by
    by_contra hge
    rw [List.getElem?_eq_none (by omega)] at hget
    exact absurd hget (by simp)
  have hgd : nu.notes.getD x.1 dfltNote = x.2 := by
    rw [List.getD_eq_getElem?_getD, hget]
    rfl
  refine ⟨hlt, hgd, ?_, hhead⟩
  have := hcons x.1 hlt
  rw [hgd] at this
  exact this

theorem orderSkip_spec (lvl : Nat) (l : List (Nat × Note)) :
    (orderSkip lvl l = l.length ∧
      l.find? (fun q => decide (q.2.level ≤ lvl)) = none) ∨
    (∃ q, l.find? (fun q => decide (q.2.level ≤ lvl)) = some q ∧
      orderSkip lvl l < l.length ∧ l.getD (orderSkip lvl l) (0, dfltNote) = q) := by
  induction l with
  | nil => exact Or.inl ⟨rfl, rfl⟩
  | cons b l ih =>
    by_cases hb : b.2.level > lvl
    · have hfb : decide (b.2.level ≤ lvl) = false := by simp; omega
      rcases ih with ⟨h1, h2⟩ | ⟨q, h1, h2, h3⟩
      · refine Or.inl ⟨?_, ?_⟩
        · simp only [orderSkip, hb, if_pos, List.length_cons, h1]
          omega
        · rw [List.find?]
          rw [hfb]
          exact h2
      · refine Or.inr ⟨q, ?_, ?_, ?_⟩
        · rw [List.find?]
          rw [hfb]
          exact h1
        · simp only [orderSkip, hb, if_pos, List.length_cons]
          omega
        · simp only [orderSkip, hb, if_pos]
          have h4 : 1 + orderSkip lvl l = orderSkip lvl l + 1 := by omega
          rw [h4, List.getD_cons_succ]
          exact h3
    · have hfb : decide (b.2.level ≤ lvl) = true := by simp; omega
      refine Or.inr ⟨b, ?_, ?_, ?_⟩
      · rw [List.find?]
        rw [hfb]
      · simp [orderSkip, hb]
      · simp [orderSkip, hb]

theorem levelNameOf_inj (nu : NoteUtil) (hnd : nu.level_names.Nodup)
    (x y : Note) (hx : 1 ≤ x.level ∧ x.level ≤ nu.level_names.length)
    (hy : 1 ≤ y.level ∧ y.level ≤ nu.level_names.length) :
    (levelNameOf nu x = levelNameOf nu y) ↔ x.level = y.level := by
  constructor
  · intro h
    rw [levelNameOf, levelNameOf, pyGet, pyGet,
      if_pos (by omega : (0 : Int) ≤ (x.level : Int) - 1),
      if_pos (by omega : (0 : Int) ≤ (y.level : Int) - 1)] at h
    have hx1 : ((x.level : Int) - 1).toNat = x.level - 1 := by omega
    have hy1 : ((y.level : Int) - 1).toNat = y.level - 1 := by omega
    rw [hx1, hy1] at h
    rw [List.get?_eq_getElem?, List.get?_eq_getElem?] at h
    rw [List.getElem?_eq_getElem (by omega : x.level - 1 < nu.level_names.length),
      List.getElem?_eq_getElem (by omega : y.level - 1 < nu.level_names.length)] at h
    injection h with h1
    have := (List.Nodup.getElem_inj_iff hnd).mp h1
    omega
  · intro h
    rw [levelNameOf, levelNameOf, h]

theorem anc_le_sib (suffix : List (Nat × Note)) (lvl : Nat) (N : Nat)
    (hmono : suffix.Pairwise (fun a b => a.1 < b.1))
    (hval : ∀ x ∈ suffix, x.2.nindex = (x.1 : Int) ∧ x.1 < N) :
    ancAfter suffix lvl N ≤ sibAfter suffix lvl N := by
  rw [ancAfter, sibAfter]
  cases hsib : suffix.find? (fun q => decide (q.2.level = lvl)) with
  | none =>
    cases hanc : suffix.find? (fun q => decide (q.2.level ≤ lvl)) with
    | none => exact le_refl _
    | some b =>
      have hb := hval b (List.mem_of_find?_eq_some hanc)
      simp only []
      omega
  | some c =>
    have hcP := List.find?_some hsib
    have hcl : c.2.level = lvl := by simpa using hcP
    obtain ⟨s, t, hdec, hsfail⟩ := find?_split _ _ _ hsib
    subst hdec
    rw [List.find?_append]
    cases hanc1 : s.find? (fun q => decide (q.2.level ≤ lvl)) with
    | some b =>
      have hbmem : b ∈ s := List.mem_of_find?_eq_some hanc1
      have hbc : b.1 < c.1 := by
        rw [List.pairwise_append] at hmono
        exact hmono.2.2 b hbmem c (by simp)
      have hbv := hval b (by simp [hbmem])
      have hcv := hval c (by simp)
      simp only [Option.or]
      omega
    | none =>
      have hcQ : decide (c.2.level ≤ lvl) = true := by simp; omega
      simp only [Option.or, List.find?]
      rw [hcQ]

theorem int_if_lt_min (a b : Int) : (if a < b then a else b) = min a b := by
  rw [min_def]
  split
  · split
    · rfl
    · omega
  · split
    · omega
    · rfl

theorem levelNindexFor_eq_sib (nu : NoteUtil)
    (hnd : nu.level_names.Nodup)
    (hlv : ∀ x ∈ headingsTagged nu.notes,
      1 ≤ x.2.level ∧ x.2.level ≤ nu.level_names.length)
    (p : Nat) (n : Note) (l1 l2 : List (Nat × Note))
    (hsplit : headingsTagged nu.notes = l1 ++ (p, n) :: l2)
    (hne : (p, n) ∉ l1) :
    levelNindexFor nu p n = sibAfter l2 n.level nu.notes.length := by
  have hmem_pn : (p, n) ∈ headingsTagged nu.notes := by rw [hsplit]; simp
  have hlv_pn := hlv (p, n) hmem_pn
  have hl2P : ∀ x ∈ l2, (decide (levelNameOf nu x.2 = levelNameOf nu n)) =
      (decide (x.2.level = n.level)) := by
    intro x hx
    have hxh : x ∈ headingsTagged nu.notes := by rw [hsplit]; simp [hx]
    exact decide_eq_decide.mpr (levelNameOf_inj nu hnd x.2 n (hlv x hxh) hlv_pn)
  have hgroup : groupFor nu n =
      (l1.filter (fun q => decide (levelNameOf nu q.2 = levelNameOf nu n))) ++
        (p, n) :: l2.filter (fun q => decide (q.2.level = n.level)) := by
    rw [groupFor, hsplit, List.filter_append, List.filter_cons]
    simp only [decide_eq_true_eq]
    rw [if_pos trivial, List.filter_congr hl2P]
  have hnef : (p, n) ∉
      l1.filter (fun q => decide (levelNameOf nu q.2 = levelNameOf nu n)) :=
    fun hm => hne (List.mem_of_mem_filter hm)
  have hidx := pyListIndex_append_not_mem
    (l1.filter (fun q => decide (levelNameOf nu q.2 = levelNameOf nu n)))
    (l2.filter (fun q => decide (q.2.level = n.level))) (p, n) hnef
  rw [levelNindexFor]
  rw [hgroup, hidx]
  rw [sibAfter, ← filter_head?]
  cases hf2 : l2.filter (fun q => decide (q.2.level = n.level)) with
  | nil =>
    rw [if_pos (by simp)]
    rfl
  | cons b t =>
    rw [if_neg (by simp)]
    have h1 : (l1.filter (fun q => decide (levelNameOf nu q.2 = levelNameOf nu n))).length
        + 1 = (l1.filter (fun q => decide (levelNameOf nu q.2 = levelNameOf nu n))).length
        + 1 := rfl
    rw [getD_append_right _ ((p, n) :: b :: t) 1 (0, dfltNote)]
    rfl

theorem orderNindexFor_eq_anc (nu : NoteUtil)
    (p : Nat) (n : Note) (l1 l2 : List (Nat × Note))
    (hsplit : headingsTagged nu.notes = l1 ++ (p, n) :: l2)
    (hne : (p, n) ∉ l1) :
    orderNindexFor nu p n = ancAfter l2 n.level nu.notes.length := by
  have hidx := pyListIndex_append_not_mem l1 l2 (p, n) hne
  rw [orderNindexFor]
  rw [hsplit, hidx]
  have hdrop : (l1 ++ (p, n) :: l2).drop (l1.length + 1) = l2 := by
    rw [show l1 ++ (p, n) :: l2 = (l1 ++ [(p, n)]) ++ l2 by simp,
      show l1.length + 1 = (l1 ++ [(p, n)]).length by simp]
    exact List.drop_left _ _
  rw [hdrop]
  rcases orderSkip_spec n.level l2 with ⟨h1, h2⟩ | ⟨b, h1, h2, h3⟩
  · rw [h1, if_pos (by simp; omega), ancAfter, h2]
  · rw [if_neg (by simp; omega), ancAfter, h1]
    have h4 : l1.length + 1 + orderSkip n.level l2 =
        l1.length + (1 + orderSkip n.level l2) := by omega
    rw [h4, getD_append_right]
    have h5 : 1 + orderSkip n.level l2 = orderSkip n.level l2 + 1 := by omega
    rw [h5, List.getD_cons_succ, h3]

theorem split_not_mem_left (nu : NoteUtil) (p : Nat) (n : Note)
    (l1 l2 : List (Nat × Note))
    (hsplit : headingsTagged nu.notes = l1 ++ (p, n) :: l2) :
    (p, n) ∉ l1 := by
  intro hmem
  have hpair := headingsTagged_pairwise nu.notes
  rw [hsplit, List.pairwise_append] at hpair
  have := hpair.2.2 (p, n) hmem (p, n) (by simp)
  omega

theorem endForN_eq_min (nu : NoteUtil)
    (hnd : nu.level_names.Nodup)
    (hlv : ∀ x ∈ headingsTagged nu.notes,
      1 ≤ x.2.level ∧ x.2.level ≤ nu.level_names.length)
    (p : Nat) (n : Note) (l1 l2 : List (Nat × Note))
    (hsplit : headingsTagged nu.notes = l1 ++ (p, n) :: l2) :
    endForN nu p n =
      min (sibAfter l2 n.level nu.notes.length) (ancAfter l2 n.level nu.notes.length) := by
  have hne := split_not_mem_left nu p n l1 l2 hsplit
  rw [endForN, levelNindexFor_eq_sib nu hnd hlv p n l1 l2 hsplit hne,
    orderNindexFor_eq_anc nu p n l1 l2 hsplit hne, int_if_lt_min]

theorem nesting_aux (nu : NoteUtil) (hcons : nindexConsistent nu)
    (p : Nat) (g : Note) (q : Nat) (h : Note) (l1 l2 l3 : List (Nat × Note))
    (hsplit : headingsTagged nu.notes = l1 ++ (p, g) :: (l2 ++ (q, h) :: l3))
    (hq : (q : Int) < min (sibAfter (l2 ++ (q, h) :: l3) g.level nu.notes.length)
      (ancAfter (l2 ++ (q, h) :: l3) g.level nu.notes.length)) :
    min (sibAfter l3 h.level nu.notes.length) (ancAfter l3 h.level nu.notes.length) ≤
      min (sibAfter (l2 ++ (q, h) :: l3) g.level nu.notes.length)
        (ancAfter (l2 ++ (q, h) :: l3) g.level nu.notes.length) := by
  have hpairAll : (l1 ++ (p, g) :: (l2 ++ (q, h) :: l3)).Pairwise
      (fun a b => a.1 < b.1) := by
    have := headingsTagged_pairwise nu.notes
    rwa [hsplit] at this
  have hvalL : ∀ x ∈ l2 ++ (q, h) :: l3,
      x.2.nindex = (x.1 : Int) ∧ x.1 < nu.notes.length := by
    intro x hx
    have hxh : x ∈ headingsTagged nu.notes := by rw [hsplit]; simp [hx]
    have := headingsTagged_mem_facts nu hcons x hxh
    exact ⟨this.2.2.1, this.1⟩
  have hval3 : ∀ x ∈ l3, x.2.nindex = (x.1 : Int) ∧ x.1 < nu.notes.length := by
    intro x hx
    exact hvalL x (by simp [hx])
  have hpL : (l2 ++ (q, h) :: l3).Pairwise (fun a b => a.1 < b.1) :=
    (List.pairwise_cons.mp (List.pairwise_append.mp hpairAll).2.1).2
  have hp3 : l3.Pairwise (fun a b => a.1 < b.1) :=
    (List.pairwise_cons.mp (List.pairwise_append.mp hpL).2.1).2
  have hq_lt3 : ∀ x ∈ l3, q < x.1 := by
    intro x hx
    exact (List.pairwise_cons.mp (List.pairwise_append.mp hpL).2.1).1 x hx
  have hl2_lt_q : ∀ x ∈ l2, x.1 < q := by
    intro x hx
    exact (List.pairwise_append.mp hpL).2.2 x hx (q, h) (by simp)
  have halsL := anc_le_sib (l2 ++ (q, h) :: l3) g.level nu.notes.length hpL hvalL
  have hals3 := anc_le_sib l3 h.level nu.notes.length hp3 hval3
  have hminL : min (sibAfter (l2 ++ (q, h) :: l3) g.level nu.notes.length)
      (ancAfter (l2 ++ (q, h) :: l3) g.level nu.notes.length) =
      ancAfter (l2 ++ (q, h) :: l3) g.level nu.notes.length := min_eq_right halsL
  rw [hminL] at hq ⊢
  refine le_trans (min_le_right _ _) ?_
  simp only [ancAfter] at hq ⊢
  cases hfg : (l2 ++ (q, h) :: l3).find? (fun x => decide (x.2.level ≤ g.level)) with
  | none =>
    cases hf3 : l3.find? (fun x => decide (x.2.level ≤ h.level)) with
    | none => exact le_refl _
    | some b =>
      have hb := hval3 b (List.mem_of_find?_eq_some hf3)
      show b.2.nindex ≤ (nu.notes.length : Int)
      omega
  | some b =>
    rw [hfg] at hq
    have hbL : b ∈ l2 ++ (q, h) :: l3 := List.mem_of_find?_eq_some hfg
    have hbval := hvalL b hbL
    obtain ⟨hbv1, hbv2⟩ := hbval
    have hq2 : (q : Int) < b.2.nindex := hq
    have hqb : q < b.1 := by omega
    have hb3 : b ∈ l3 := by
      rcases List.mem_append.mp hbL with h1 | h1
      · exact absurd (hl2_lt_q b h1) (by omega)
      · rcases List.mem_cons.mp h1 with h2 | h2
        · rw [h2] at hqb; simp at hqb
        · exact h2
    have hQgb := List.find?_some hfg
    have hblev : b.2.level ≤ g.level := by simpa using hQgb
    obtain ⟨s, t, hdec, hsfail⟩ := find?_split _ _ _ hfg
    have hqh_in_s : (q, h) ∈ s := by
      have hqhL : (q, h) ∈ l2 ++ (q, h) :: l3 := by simp
      rw [hdec] at hqhL
      rcases List.mem_append.mp hqhL with h1 | h1
      · exact h1
      · rcases List.mem_cons.mp h1 with h2 | h2
        · exfalso
          have : b.1 = q := by rw [← h2]
          omega
        · exfalso
          have hpd : (s ++ b :: t).Pairwise (fun a b => a.1 < b.1) := by
            rw [← hdec]; exact hpL
          have := (List.pairwise_cons.mp (List.pairwise_append.mp hpd).2.1).1 (q, h) h2
          simp at this
          omega
    have hglt : g.level < h.level := by
      have := hsfail (q, h) hqh_in_s
      simp at this
      omega
    have hQhb : decide (b.2.level ≤ h.level) = true := by
      simp
      omega
    cases hf3 : l3.find? (fun x => decide (x.2.level ≤ h.level)) with
    | none =>
      exfalso
      exact (List.find?_eq_none.mp hf3 b hb3) hQhb
    | some b' =>
      have hb'3 : b' ∈ l3 := List.mem_of_find?_eq_some hf3
      have hb'val := hval3 b' hb'3
      obtain ⟨hb'v1, hb'v2⟩ := hb'val
      have hb'le : b'.1 ≤ b.1 := by
        obtain ⟨s3, t3, hdec3, hs3fail⟩ := find?_split _ _ _ hf3
        have hbmem3 : b ∈ s3 ++ b' :: t3 := by rw [← hdec3]; exact hb3
        rcases List.mem_append.mp hbmem3 with h1 | h1
        · exfalso
          have hcontr : decide (b.2.level ≤ h.level) = false := hs3fail b h1
          rw [hQhb] at hcontr
          simp at hcontr
        · rcases List.mem_cons.mp h1 with h2 | h2
          · rw [h2]
          · have hpd3 : (s3 ++ b' :: t3).Pairwise (fun a b => a.1 < b.1) := by
              rw [← hdec3]; exact hp3
            have := (List.pairwise_cons.mp (List.pairwise_append.mp hpd3).2.1).1 b h2
            omega
      show b'.2.nindex ≤ b.2.nindex
      omega

/-- Claim C4 as amended by `resolver_duplicate_level_names_cex`: on a
consistent store whose level names are pairwise distinct and whose
heading levels lie in `1..L` (grouping by level name then coincides
with grouping by level), the resolver assigns every heading
`end_nindex = min(sibling boundary, ancestor boundary)`; and
consequently heading ranges nest properly: a heading strictly inside
another's range starts no earlier and ends no later. -/
theorem resolver_end_nindex_min_and_nesting (nu : NoteUtil) (hc : Str)
    (hcfg : nu.heading_char = some hc)
    (hnd : nu.level_names.Nodup)
    (hlv : ∀ x ∈ headingsTagged nu.notes,
      1 ≤ x.2.level ∧ x.2.level ≤ nu.level_names.length)
    (hcons : nindexConsistent nu) :
    (∀ (p : Nat) (n : Note) (l1 l2 : List (Nat × Note)),
      headingsTagged nu.notes = l1 ++ (p, n) :: l2 →
      (completeHeadings nu).notes.getD p dfltNote =
        { n with end_nindex := some (min (sibAfter l2 n.level nu.notes.length)
            (ancAfter l2 n.level nu.notes.length)) }) ∧
    (∀ (p : Nat) (g : Note) (q : Nat) (h : Note) (l1 l2 l3 : List (Nat × Note)),
      headingsTagged nu.notes = l1 ++ (p, g) :: (l2 ++ (q, h) :: l3) →
      (q : Int) < min (sibAfter (l2 ++ (q, h) :: l3) g.level nu.notes.length)
          (ancAfter (l2 ++ (q, h) :: l3) g.level nu.notes.length) →
      (p : Int) + 1 ≤ (q : Int) + 1 ∧
        min (sibAfter l3 h.level nu.notes.length)
            (ancAfter l3 h.level nu.notes.length) ≤
          min (sibAfter (l2 ++ (q, h) :: l3) g.level nu.notes.length)
            (ancAfter (l2 ++ (q, h) :: l3) g.level nu.notes.length)) := by
  constructor
  · intro p n l1 l2 hsplit
    have hmem : (p, n) ∈ headingsTagged nu.notes := by rw [hsplit]; simp
    have hfacts := headingsTagged_mem_facts nu hcons (p, n) hmem
    rw [completeHeadings_getD nu hc hcfg p hfacts.1]
    rw [hfacts.2.1]
    rw [if_pos hfacts.2.2.2]
    rw [endForN_eq_min nu hnd hlv p n l1 l2 hsplit]
  · intro p g q h l1 l2 l3 hsplit hq
    have hpairAll := headingsTagged_pairwise nu.notes
    rw [hsplit] at hpairAll
    have hpq : p < q := by
      have h2 := (List.pairwise_append.mp hpairAll).2.1
      simpa using (List.pairwise_cons.mp h2).1 (q, h) (by simp)
    exact ⟨by omega, nesting_aux nu hcons p g q h l1 l2 l3 hsplit hq⟩

/-- The spec's section-8 scenario store: `# Intro` / `term:: def` /
`## Sub` / `other:: stuff` under marker `#`, levels
`["Chapter", "Section"]`, separator `::`, as parsed. -/
def scenIntro : Note :=
  { content := ("Intro".toList), nindex := 0, heading_char := some ['#'], level := 1,
    level_name := some ("Chapter".toList), heading := some ['#'],
    heading_name := some ("Intro".toList), begin_nindex := some 1 }

def scenPair1 : Note :=
  { content := ("term:: def".toList), nindex := 1, term := some ("term".toList),
    definition := some ("def".toList), separator := some [':', ':'] }

def scenSub : Note :=
  { content := ("Sub".toList), nindex := 2, heading_char := some ['#'], level := 2,
    level_name := some ("Section".toList), heading := some ['#', '#'],
    heading_name := some ("Sub".toList), begin_nindex := some 3 }

def scenPair2 : Note :=
  { content := ("other:: stuff".toList), nindex := 3, term := some ("other".toList),
    definition := some ("stuff".toList), separator := some [':', ':'] }

def nuScen : NoteUtil :=
  { notes := [scenIntro, scenPair1, scenSub, scenPair2], heading_char := some ['#'],
    levels := 2, level_names := [("Chapter".toList), ("Section".toList)],
    separator := some [':', ':'] }

/-- Witness for claim C4: in the spec's scenario store, the resolver
gives the heading `Intro` the boundary
`min(sibling, ancestor) = min(4, 4) = 4`, the store size. -/
theorem resolver_end_nindex_min_and_nesting_witness :
    (completeHeadings nuScen).notes.getD 0 dfltNote =
      { scenIntro with end_nindex := some 4 } := by
  have h := (resolver_end_nindex_min_and_nesting nuScen ['#'] (by decide) (by decide)
    (by decide) (by unfold nindexConsistent; decide)).1 0 scenIntro []
    [(2, scenSub)] (by decide)
  rw [h]
  decide
